import Mathlib

/-!
Verification of the agent tool-orchestration loop of the
PracticalMCPWithFastMCP companion toolkit.

The embedding covers:
* the conversation loop `chat` shared (up to result-text extraction) by
  `fastmcp_netflix/client/main.py` and `puppy_guide/client/main.py`;
* the history bound applied between turns in `run_repl`;
* the two elicitation handlers
  (`fastmcp_netflix/client/handlers/elicitation.py` and
  `puppy_guide/client/handlers/elicitation.py`);
* the progress handler (`handlers/progress.py`, identical logic in both
  clients);
* the `add_to_favorites` tool of
  `fastmcp_netflix/server/components/tools.py`.

External collaborators (the OpenAI completion API, the remote MCP tool
host, `json.loads`, stdin) are modelled at their interfaces: the LLM is a
script of assistant messages consumed one per completion request, the tool
host is a function returning either content blocks or a raised exception,
`json.loads` is a function returning `none` on a raised decode error, and
stdin is the line the handler would read plus a count of consumed lines.
-/

namespace MCP

/-- A `ToolCallRequest` emitted by the LLM: `tool_call.id`,
`tool_call.function.name`, and `tool_call.function.arguments` (the raw
JSON string, before `json.loads` is applied). -/
structure ToolCall where
  id : String
  name : String
  arguments : String
  deriving DecidableEq, Repr

/-- The assistant message returned by one completion request
(`response.choices[0].message`): optional text content plus the ordered
sequence of tool calls (`[]` models a `None`/absent `tool_calls` field). -/
structure AssistantMsg where
  content : Option String
  tool_calls : List ToolCall
  deriving DecidableEq, Repr

/-- One entry of the conversation history (the `messages` list). -/
inductive Msg where
  | system (content : String)
  | user (content : String)
  | assistant (m : AssistantMsg)
  | tool (tool_call_id : String) (name : String) (content : String)
  deriving DecidableEq, Repr

/-- One content block of a tool result (`result.content`): a block either
carries a `.text` attribute (`hasattr(block, "text")`) or does not. -/
inductive Block where
  | text (s : String)
  | other
  deriving DecidableEq, Repr

/-- The `.text` of a block, when it has one. -/
def Block.textOf : Block → Option String
  | .text s => some s
  | .other => none

/-- Python's `sep.join(strings)`. -/
def pyJoin (sep : String) : List String → String
  | [] => ""
  | [s] => s
  | s :: rest => s ++ sep ++ pyJoin sep (rest)

/-- `fastmcp_netflix/client/main.py` lines 123-125:
`"\n".join(block.text for block in result.content if hasattr(block, "text"))`. -/
def extractResultText (result : List Block) : String :=
  pyJoin "\n" (result.filterMap Block.textOf)

/-- Spec §4.4 wording, written independently of `extractResultText` for
the refinement proof: "concatenate the text-bearing items in order,
separated by newlines — non-text items are skipped". -/
def hasTextItem : List Block → Bool
  | [] => false
  | Block.text _ :: _ => true
  | Block.other :: rest => hasTextItem rest

/-- Spec-side textual payload of a structured content sequence: the
text-bearing items in their original order, with a newline between
consecutive kept items and non-text items skipped. -/
def specTextualPayload : List Block → String
  | [] => ""
  | Block.other :: rest => specTextualPayload rest
  | Block.text s :: rest =>
    if hasTextItem rest then s ++ "\n" ++ specTextualPayload rest
    else s

/-- Python's built-in rendering of a list, as produced by `str(xs)` when
`xs` is a list: the item renderings joined by `", "` inside square
brackets.  How a single item renders is library-defined, so it is a
parameter; the empty list renders `"[]"` for every item repr. -/
def pyStrList (itemRepr : Block → String) (l : List Block) : String :=
  "[" ++ pyJoin ", " (l.map itemRepr) ++ "]"

/-- `mcp-client/client.py` line 68:
`mcp_tool_content = str(result.content)` — the result's whole
content-block list is stringified with Python's list formatting instead
of extracting the text items.  (The puppy_guide client's
`result_text = str(result)` likewise stringifies the result object.)  The
per-item repr comes from the external mcp library and stays abstract. -/
def mcpClientFold (itemRepr : Block → String) (result : List Block) : String :=
  pyStrList itemRepr result

/-- The loop's external collaborators: `decodeArgs` models
`json.loads(tool_call.function.arguments)` (`none` = a raised
`JSONDecodeError`; the decoded structure is kept abstract as a string);
`callTool` models `await mcp_client.call_tool(tool_name, tool_args)`
(`Except.error` = any raised exception, carrying `str(e)`; `Except.ok` =
the result's content blocks). -/
structure Env where
  decodeArgs : String → Option String
  callTool : String → String → Except String (List Block)

/-- The try/except body for a single decoded tool call (netflix client
lines 120-127): on success the extracted text, on any exception the
`"Error: <cause>"` descriptor; one `tool` message keyed by the request. -/
def foldCallResult (env : Env) (tc : ToolCall) (args : String) : Msg :=
  Msg.tool tc.id tc.name
    (match env.callTool tc.name args with
     | Except.ok result => extractResultText result
     | Except.error e => "Error: " ++ e)

/-- The `for tool_call in assistant_message.tool_calls` loop (netflix
client lines 115-137): decode the arguments (outside the try block), then
invoke and fold.  `Except.error msgs` models the `json.loads` exception
escaping the loop, with `msgs` the tool messages already appended before
the raise; `Except.ok msgs` is the full list of appended tool messages. -/
def processToolCalls (env : Env) : List ToolCall → Except (List Msg) (List Msg)
  | [] => Except.ok []
  | tc :: rest =>
    match env.decodeArgs tc.arguments with
    | none => Except.error []
    | some args =>
      match processToolCalls env rest with
      | Except.ok msgs => Except.ok (foldCallResult env tc args :: msgs)
      | Except.error msgs => Except.error (foldCallResult env tc args :: msgs)

/-- Outcome of one `chat` call.  `.ok` is the normal return (final
history, returned answer); `.exn` is an exception escaping `chat` (the
history keeps every message appended before the raise); `.awaiting h`
marks that the loop requested one more completion (with history `h`) than
the script supplies — the run is cut there, where the real loop would
block on the LLM. -/
inductive ChatOutcome where
  | ok (history : List Msg) (answer : String)
  | exn (history : List Msg)
  | awaiting (history : List Msg)
  deriving DecidableEq, Repr

/-- The `while True` completion loop of `chat` (netflix client lines
96-141).  Each iteration consumes one scripted assistant message —
modelling `openai_client.chat.completions.create` — appends it verbatim,
returns the content if it carries no tool calls, and otherwise appends the
tool results and repeats.  The second component instruments the run with
the histories passed to each completion request (the value of `messages`
at each `create` call). -/
def chatLoopAux (env : Env) : List AssistantMsg → List Msg → ChatOutcome × List (List Msg)
  | [], history => (ChatOutcome.awaiting history, [history])
  | am :: script, history =>
    if am.tool_calls.isEmpty then
      (ChatOutcome.ok (history ++ [Msg.assistant am]) (am.content.getD ""), [history])
    else
      match processToolCalls env am.tool_calls with
      | Except.error msgs =>
        (ChatOutcome.exn ((history ++ [Msg.assistant am]) ++ msgs), [history])
      | Except.ok msgs =>
        ((chatLoopAux env script ((history ++ [Msg.assistant am]) ++ msgs)).1,
          history :: (chatLoopAux env script ((history ++ [Msg.assistant am]) ++ msgs)).2)

/-- The completion loop's outcome. -/
def chatLoop (env : Env) (script : List AssistantMsg) (history : List Msg) : ChatOutcome :=
  (chatLoopAux env script history).1

/-- The histories with which the loop requested LLM completions, in
order. -/
def completionInputs (env : Env) (script : List AssistantMsg) (history : List Msg) : List (List Msg) :=
  (chatLoopAux env script history).2

/-- `chat(user_question, openai_client, tools, messages)`: append the user
message to the history, then run the completion loop. -/
def chat (env : Env) (script : List AssistantMsg) (user_question : String)
    (messages : List Msg) : ChatOutcome :=
  chatLoop env script (messages ++ [Msg.user user_question])

/-- The final value of the `messages` list when `chat` returns, raises, or
blocks. -/
def ChatOutcome.history : ChatOutcome → List Msg
  | .ok h _ => h
  | .exn h => h
  | .awaiting h => h

/-- The history bound applied by `run_repl` after a completed turn
(netflix client lines 201-203, puppy client lines 119-120):
`if len(messages) > MAX_HISTORY + 1: messages = [messages[0]]`.  Under the
guard the list is nonempty, so `[messages[0]]` is `messages.take 1`. -/
def boundHistory (maxHistory : Nat) (messages : List Msg) : List Msg :=
  if messages.length > maxHistory + 1 then messages.take 1 else messages

/-- `msgs` answers `calls` exactly: one `tool` message per request, in
request order, keyed by the request's id and carrying its name. -/
def goodResults (calls : List ToolCall) (msgs : List Msg) : Prop :=
  msgs.length = calls.length ∧
    ∀ j, j < calls.length →
      ∃ tc c, calls[j]? = some tc ∧ msgs[j]? = some (Msg.tool tc.id tc.name c)

/-- One completion-to-completion step of the loop: between two consecutive
completion requests the history grew by exactly the assistant message
(which carried at least one tool call) followed by its answers. -/
def completionStep (h h2 : List Msg) : Prop :=
  ∃ am results, h2 = h ++ Msg.assistant am :: results ∧
    am.tool_calls ≠ [] ∧ goodResults am.tool_calls results

/-- Python's `str.strip()` on a list of characters: drop whitespace from
both ends. -/
def pyStripList (l : List Char) : List Char :=
  ((l.dropWhile Char.isWhitespace).reverse.dropWhile Char.isWhitespace).reverse

/-- Python's `s.strip()` (default whitespace stripping). -/
def pyStrip (s : String) : String :=
  String.mk (pyStripList s.data)

/-- The numeric value of a nonempty all-digit character list. -/
def digitsVal (l : List Char) : Option Nat :=
  if l ≠ [] ∧ l.all Char.isDigit then
    some (l.foldl (fun a c => a * 10 + (c.toNat - 48)) 0)
  else none

/-- Python's `int(raw)` on an already-stripped string: an optional sign
followed by a nonempty digit run; `none` models a raised `ValueError`.
(Digit-group underscores, accepted by CPython, are not modelled; no input
in the claims uses them.) -/
def pyInt (s : String) : Option Int :=
  match s.data with
  | '+' :: rest => (digitsVal rest).map Int.ofNat
  | '-' :: rest => (digitsVal rest).map (fun n => -(n : Int))
  | l => (digitsVal l).map Int.ofNat

/-- What an elicitation handler hands back to fastmcp.  `.accept` is
`ElicitResult(action="accept")`, `.decline` is
`ElicitResult(action="decline")`, `.acceptValue v` is
`response_type(value=v)`, and `.raises` is an uncaught Python exception
escaping the handler. -/
inductive ElicitOutcome where
  | accept
  | decline
  | acceptValue (value : String)
  | raises
  deriving DecidableEq, Repr

namespace NetflixClient

/-- `fastmcp_netflix/client/handlers/elicitation.py`.  `respTypePresent`
is `response_type is not None`; `line` is the line `input()` would return
if the handler reads one.  Returns the outcome and the number of stdin
lines consumed. -/
def elicitation_handler (respTypePresent : Bool) (line : String) :
    ElicitOutcome × Nat :=
  if !respTypePresent then (ElicitOutcome.accept, 0)
  else if pyStrip line = "" then (ElicitOutcome.decline, 1)
  else (ElicitOutcome.acceptValue (pyStrip line), 1)

end NetflixClient

namespace PuppyClient

/-- `puppy_guide/client/handlers/elicitation.py`.  `options` are the
`const` values extracted from `params.requestedSchema` (empty when the
schema enumerates none, e.g. a free-form shape); the menu and question are
printed, then one line is always read.  `choice = int(raw)` declines on
`ValueError`; `choice < 1 or choice == len(options) + 1` declines; a
`None` response type accepts with no data; otherwise
`options[choice - 1]` is returned, and an out-of-range index is an
uncaught `IndexError` (`.raises`). -/
def elicitation_handler (options : List String) (respTypePresent : Bool)
    (line : String) : ElicitOutcome × Nat :=
  match pyInt (pyStrip line) with
  | none => (ElicitOutcome.decline, 1)
  | some choice =>
    if choice < 1 ∨ choice = (options.length : Int) + 1 then
      (ElicitOutcome.decline, 1)
    else if !respTypePresent then (ElicitOutcome.accept, 1)
    else
      match options[choice.toNat - 1]? with
      | some v => (ElicitOutcome.acceptValue v, 1)
      | none => (ElicitOutcome.raises, 1)

end PuppyClient

/-- What the progress handler prints as its numeric part: a percentage
(`f"{percentage:.0f}%"`) or a raw count (`str(int(progress))`). -/
inductive ProgressRender where
  | percent (value : ℤ)
  | raw (value : ℤ)
  deriving DecidableEq, Repr

/-- Round half to even: the shared semantics of Python's `round()` and of
the `%.0f` float format used by the handler. -/
def roundHalfEven (q : ℚ) : ℤ :=
  if q - (⌊q⌋ : ℚ) < 1/2 then ⌊q⌋
  else if 1/2 < q - (⌊q⌋ : ℚ) then ⌊q⌋ + 1
  else if ⌊q⌋ % 2 = 0 then ⌊q⌋ else ⌊q⌋ + 1

/-- Python's `int()` on a number: truncation toward zero. -/
def pyTrunc (q : ℚ) : ℤ :=
  if 0 ≤ q then ⌊q⌋ else ⌈q⌉

/-- `handlers/progress.py` (same logic in both clients): when `total` is
present and positive, render the rounded percentage; otherwise render the
truncated raw progress value.  Numbers are modelled as rationals. -/
def progress_handler (progress : ℚ) (total : Option ℚ) : ProgressRender :=
  match total with
  | some t =>
    if 0 < t then ProgressRender.percent (roundHalfEven (progress / t * 100))
    else ProgressRender.raw (pyTrunc progress)
  | none => ProgressRender.raw (pyTrunc progress)

/-- A movie row as far as `add_to_favorites` consumes it. -/
structure Movie where
  id : Nat
  title : String
  deriving DecidableEq, Repr

/-- One stored favorites entry: `{"id": movie.id, "title": movie.title}`. -/
structure FavEntry where
  id : Nat
  title : String
  deriving DecidableEq, Repr

/-- `fastmcp_netflix/server/components/tools.py` lines 212-221, after the
movie lookup has resolved: read the favorites, return the
already-in-favorites message unchanged when an entry with the same id
exists, otherwise append `{"id": ..., "title": ...}` and write back.
Returns the new favorites state and the reply string. -/
def add_to_favorites (movie : Movie) (favorites : List FavEntry) :
    List FavEntry × String :=
  if favorites.any (fun fav => fav.id == movie.id) then
    (favorites, "\x27" ++ movie.title ++ "\x27 is already in your favorites")
  else
    (favorites ++ [⟨movie.id, movie.title⟩],
      "Added \x27" ++ movie.title ++ "\x27 to favorites. You now have " ++
        toString (favorites ++ [(⟨movie.id, movie.title⟩ : FavEntry)]).length ++
        " favorite(s).")

/-- The favorites state after a sequence of `add_to_favorites` calls in
one session, starting from the empty list
(`await ctx.get_state("favorites") or []`; only this tool writes the
key). -/
def runAdds (movies : List Movie) : List FavEntry :=
  movies.foldl (fun favorites m => (add_to_favorites m favorites).1) []

/-! Helper lemmas. -/

theorem goodResults_nil : goodResults [] [] :=
  ⟨rfl, fun j hj => absurd hj (Nat.not_lt_zero j)⟩

theorem goodResults_cons {calls : List ToolCall} {msgs : List Msg}
    (tc : ToolCall) (c : String) (h : goodResults calls msgs) :
    goodResults (tc :: calls) (Msg.tool tc.id tc.name c :: msgs) := by
  obtain ⟨hl, hidx⟩ := h
  refine ⟨by simp [hl], ?_⟩
  intro j hj
  cases j with
  | zero => exact ⟨tc, c, by simp, by simp⟩
  | succ n =>
    obtain ⟨tc2, c2, h1, h2⟩ := hidx n (by simpa using hj)
    exact ⟨tc2, c2, by simpa using h1, by simpa using h2⟩

theorem goodResults_mem {calls : List ToolCall} {msgs : List Msg}
    (h : goodResults calls msgs) {m : Msg} (hm : m ∈ msgs) :
    ∃ tc ∈ calls, ∃ c, m = Msg.tool tc.id tc.name c := by
  obtain ⟨hl, hidx⟩ := h
  obtain ⟨j, hj⟩ := List.mem_iff_getElem?.1 hm
  have hjlt : j < calls.length := by
    rw [← hl]
    exact (List.getElem?_eq_some_iff.1 hj).1
  obtain ⟨tc, c, h1, h2⟩ := hidx j hjlt
  refine ⟨tc, ?_, c, ?_⟩
  · exact List.mem_iff_getElem?.2 ⟨j, h1⟩
  · rw [hj] at h2
    exact Option.some_injective _ h2

theorem processToolCalls_ok_good {env : Env} :
    ∀ {calls : List ToolCall} {msgs : List Msg},
      processToolCalls env calls = Except.ok msgs → goodResults calls msgs := by
  intro calls
  induction calls with
  | nil =>
    intro msgs h
    simp only [processToolCalls] at h
    cases h
    exact goodResults_nil
  | cons tc rest ih =>
    intro msgs h
    simp only [processToolCalls] at h
    cases hd : env.decodeArgs tc.arguments with
    | none => rw [hd] at h; cases h
    | some args =>
      rw [hd] at h
      cases hp : processToolCalls env rest with
      | error msgs2 => rw [hp] at h; cases h
      | ok msgs2 =>
        rw [hp] at h
        cases h
        exact goodResults_cons tc _ (ih hp)

theorem processToolCalls_error_shape {env : Env} {bad : ToolCall}
    (hbad : env.decodeArgs bad.arguments = none) :
    ∀ (pre : List ToolCall),
      (∀ tc ∈ pre, (env.decodeArgs tc.arguments).isSome = true) →
      ∀ (post : List ToolCall), ∃ msgs,
        processToolCalls env (pre ++ bad :: post) = Except.error msgs ∧
          goodResults pre msgs := by
  intro pre
  induction pre with
  | nil =>
    intro _ post
    refine ⟨[], ?_, goodResults_nil⟩
    simp only [List.nil_append, processToolCalls, hbad]
  | cons tc pre ih =>
    intro hpre post
    obtain ⟨args, hd⟩ :=
      Option.isSome_iff_exists.1 (hpre tc (List.mem_cons_self tc pre))
    obtain ⟨msgs, hmsgs, hgood⟩ :=
      ih (fun tc2 h2 => hpre tc2 (List.mem_cons_of_mem tc h2)) post
    refine ⟨foldCallResult env tc args :: msgs, ?_, goodResults_cons tc _ hgood⟩
    simp only [List.cons_append, processToolCalls, hd, List.append_eq, hmsgs]

theorem processToolCalls_total {env : Env}
    (hdec : ∀ s, (env.decodeArgs s).isSome = true) :
    ∀ calls : List ToolCall, ∃ msgs,
      processToolCalls env calls = Except.ok msgs ∧ goodResults calls msgs ∧
        ∀ (j : Nat) (tc : ToolCall) (args e : String), calls[j]? = some tc →
          env.decodeArgs tc.arguments = some args →
          env.callTool tc.name args = Except.error e →
          msgs[j]? = some (Msg.tool tc.id tc.name ("Error: " ++ e)) := by
  intro calls
  induction calls with
  | nil =>
    refine ⟨[], rfl, goodResults_nil, ?_⟩
    intro j tc args e h1
    simp at h1
  | cons tc rest ih =>
    obtain ⟨args, hd⟩ := Option.isSome_iff_exists.1 (hdec tc.arguments)
    obtain ⟨msgs, hok, hgood, herr⟩ := ih
    refine ⟨foldCallResult env tc args :: msgs, ?_, goodResults_cons tc _ hgood, ?_⟩
    · simp only [processToolCalls, hd, hok]
    · intro j tc2 args2 e h1 h2 h3
      cases j with
      | zero =>
        simp only [List.getElem?_cons_zero, Option.some.injEq] at h1
        subst h1
        rw [hd] at h2
        cases h2
        simp [foldCallResult, h3]
      | succ n =>
        simp only [List.getElem?_cons_succ] at h1 ⊢
        exact herr n tc2 args2 e h1 h2 h3

theorem chatLoopAux_cons_final {am : AssistantMsg} (env : Env)
    (script : List AssistantMsg) (history : List Msg)
    (he : am.tool_calls = []) :
    chatLoopAux env (am :: script) history =
      (ChatOutcome.ok (history ++ [Msg.assistant am]) (am.content.getD ""),
        [history]) := by
  simp [chatLoopAux, he]

theorem chatLoopAux_cons_exn {am : AssistantMsg} {msgs : List Msg} (env : Env)
    (script : List AssistantMsg) (history : List Msg)
    (hne : am.tool_calls ≠ [])
    (hp : processToolCalls env am.tool_calls = Except.error msgs) :
    chatLoopAux env (am :: script) history =
      (ChatOutcome.exn ((history ++ [Msg.assistant am]) ++ msgs), [history]) := by
  simp [chatLoopAux, hne, hp]

theorem chatLoopAux_cons_ok {am : AssistantMsg} {msgs : List Msg} (env : Env)
    (script : List AssistantMsg) (history : List Msg)
    (hne : am.tool_calls ≠ [])
    (hp : processToolCalls env am.tool_calls = Except.ok msgs) :
    chatLoopAux env (am :: script) history =
      ((chatLoopAux env script ((history ++ [Msg.assistant am]) ++ msgs)).1,
        history ::
          (chatLoopAux env script ((history ++ [Msg.assistant am]) ++ msgs)).2) := by
  simp [chatLoopAux, hne, hp]

theorem completionInputs_head (env : Env) (script : List AssistantMsg)
    (history : List Msg) :
    (completionInputs env script history).head? = some history := by
  cases script with
  | nil => rfl
  | cons am s =>
    by_cases he : am.tool_calls = []
    · rw [completionInputs, chatLoopAux_cons_final env s history he]
      rfl
    · cases hp : processToolCalls env am.tool_calls with
      | error msgs =>
        rw [completionInputs, chatLoopAux_cons_exn env s history he hp]
        rfl
      | ok msgs =>
        rw [completionInputs, chatLoopAux_cons_ok env s history he hp]
        rfl

theorem chatLoop_history_extends (env : Env) :
    ∀ (script : List AssistantMsg) (history : List Msg),
      ∃ d, (chatLoop env script history).history = history ++ d := by
  intro script
  induction script with
  | nil => exact fun history => ⟨[], by simp [chatLoop, chatLoopAux, ChatOutcome.history]⟩
  | cons am s ih =>
    intro history
    by_cases he : am.tool_calls = []
    · rw [chatLoop, chatLoopAux_cons_final env s history he]
      exact ⟨[Msg.assistant am], rfl⟩
    · cases hp : processToolCalls env am.tool_calls with
      | error msgs =>
        rw [chatLoop, chatLoopAux_cons_exn env s history he hp]
        exact ⟨Msg.assistant am :: msgs, by simp [ChatOutcome.history]⟩
      | ok msgs =>
        rw [chatLoop, chatLoopAux_cons_ok env s history he hp]
        obtain ⟨d, hd⟩ := ih ((history ++ [Msg.assistant am]) ++ msgs)
        exact ⟨Msg.assistant am :: (msgs ++ d), by
          rw [chatLoop] at hd
          simp only [hd]
          simp⟩

theorem chatLoop_ok_of_final {env : Env}
    (hdec : ∀ s, (env.decodeArgs s).isSome = true) :
    ∀ (script : List AssistantMsg) (history : List Msg),
      (∃ am ∈ script, am.tool_calls = []) →
      ∃ h2 a, chatLoop env script history = ChatOutcome.ok h2 a := by
  intro script
  induction script with
  | nil =>
    intro history hfin
    simp at hfin
  | cons am s ih =>
    intro history hfin
    by_cases he : am.tool_calls = []
    · rw [chatLoop, chatLoopAux_cons_final env s history he]
      exact ⟨_, _, rfl⟩
    · obtain ⟨msgs, hok, -, -⟩ := processToolCalls_total hdec am.tool_calls
      rw [chatLoop, chatLoopAux_cons_ok env s history he hok]
      apply ih
      obtain ⟨am2, hmem, he2⟩ := hfin
      cases List.mem_cons.1 hmem with
      | inl h => exact absurd (h ▸ he2) he
      | inr h => exact ⟨am2, h, he2⟩

theorem completionInputs_cons_final {am : AssistantMsg} (env : Env)
    (script : List AssistantMsg) (history : List Msg)
    (he : am.tool_calls = []) :
    completionInputs env (am :: script) history = [history] := by
  rw [completionInputs, chatLoopAux_cons_final env script history he]

theorem completionInputs_cons_exn {am : AssistantMsg} {msgs : List Msg}
    (env : Env) (script : List AssistantMsg) (history : List Msg)
    (hne : am.tool_calls ≠ [])
    (hp : processToolCalls env am.tool_calls = Except.error msgs) :
    completionInputs env (am :: script) history = [history] := by
  rw [completionInputs, chatLoopAux_cons_exn env script history hne hp]

theorem completionInputs_cons_ok {am : AssistantMsg} {msgs : List Msg}
    (env : Env) (script : List AssistantMsg) (history : List Msg)
    (hne : am.tool_calls ≠ [])
    (hp : processToolCalls env am.tool_calls = Except.ok msgs) :
    completionInputs env (am :: script) history =
      history ::
        completionInputs env script ((history ++ [Msg.assistant am]) ++ msgs) := by
  rw [completionInputs, chatLoopAux_cons_ok env script history hne hp]
  rfl

theorem chatLoop_cons_exn {am : AssistantMsg} {msgs : List Msg} (env : Env)
    (script : List AssistantMsg) (history : List Msg)
    (hne : am.tool_calls ≠ [])
    (hp : processToolCalls env am.tool_calls = Except.error msgs) :
    chatLoop env (am :: script) history =
      ChatOutcome.exn ((history ++ [Msg.assistant am]) ++ msgs) := by
  rw [chatLoop, chatLoopAux_cons_exn env script history hne hp]

theorem pyJoin_cons (sep s : String) {l : List String} (h : l ≠ []) :
    pyJoin sep (s :: l) = s ++ sep ++ pyJoin sep l := by
  cases l with
  | nil => exact absurd rfl h
  | cons a t => rfl

theorem hasTextItem_eq_false {l : List Block} (h : hasTextItem l = false) :
    l.filterMap Block.textOf = [] := by
  induction l with
  | nil => rfl
  | cons b rest ih =>
    cases b with
    | text s => simp [hasTextItem] at h
    | other =>
      rw [hasTextItem] at h
      simp [List.filterMap_cons, Block.textOf, ih h]

theorem hasTextItem_eq_true {l : List Block} (h : hasTextItem l = true) :
    l.filterMap Block.textOf ≠ [] := by
  induction l with
  | nil => simp [hasTextItem] at h
  | cons b rest ih =>
    cases b with
    | text s => simp [List.filterMap_cons, Block.textOf]
    | other =>
      rw [hasTextItem] at h
      simpa [List.filterMap_cons, Block.textOf] using ih h

theorem roundHalfEven_close (q : ℚ) :
    |q - (roundHalfEven q : ℚ)| ≤ 1/2 := by
  have h1 : ((⌊q⌋ : ℤ) : ℚ) ≤ q := Int.floor_le q
  have h2 : q < (⌊q⌋ : ℤ) + 1 := Int.lt_floor_add_one q
  rw [roundHalfEven]
  split_ifs with ha hb hc
  · rw [abs_le]; constructor <;> linarith
  · rw [abs_le]; push_cast; constructor <;> linarith
  · rw [abs_le]; constructor <;> linarith
  · rw [abs_le]; push_cast; constructor <;> linarith

theorem pyTrunc_intCast (z : ℤ) : pyTrunc (z : ℚ) = z := by
  rw [pyTrunc]
  split_ifs
  · exact Int.floor_intCast z
  · exact Int.ceil_intCast z

theorem add_to_favorites_nodup (m : Movie) {favorites : List FavEntry}
    (h : (favorites.map FavEntry.id).Nodup) :
    (((add_to_favorites m favorites).1.map FavEntry.id)).Nodup := by
  rw [add_to_favorites]
  split_ifs with hmem
  · exact h
  · simp only [List.map_append, List.map_cons, List.map_nil]
    rw [List.nodup_append]
    refine ⟨h, List.nodup_singleton _, ?_⟩
    intro x hx hx2
    simp only [List.mem_singleton] at hx2
    subst hx2
    obtain ⟨fav, hfav, hid⟩ := List.mem_map.1 hx
    simp only [List.any_eq_true, beq_iff_eq, not_exists] at hmem
    exact hmem fav ⟨hfav, hid⟩

theorem runAdds_aux_nodup :
    ∀ (movies : List Movie) (favorites : List FavEntry),
      (favorites.map FavEntry.id).Nodup →
      ((movies.foldl (fun favs m => (add_to_favorites m favs).1)
          favorites).map FavEntry.id).Nodup := by
  intro movies
  induction movies with
  | nil => exact fun favorites h => h
  | cons m rest ih =>
    intro favorites h
    exact ih _ (add_to_favorites_nodup m h)

/-! Claim theorems. -/

/-- Claim C1: for every assistant message appended to the history that
carries N ≥ 1 tool-call requests, the conversation loop appends exactly N
`ToolCallResult` messages — one per request, keyed by that request's
`tool_call_id`, in the order the LLM emitted the requests — before the
next LLM completion is requested, and never proceeds to a completion with
an unanswered tool call: between any two consecutive completion-request
histories, the history grew by exactly the assistant message followed by
one matching tool message per request. -/
theorem claim_C1 (env : Env) (script : List AssistantMsg) (history : List Msg) :
    List.Chain' completionStep (completionInputs env script history) := by
  induction script generalizing history with
  | nil => exact List.chain'_singleton history
  | cons am s ih =>
    by_cases he : am.tool_calls = []
    · rw [completionInputs_cons_final env s history he]
      exact List.chain'_singleton history
    · cases hp : processToolCalls env am.tool_calls with
      | error msgs =>
        rw [completionInputs_cons_exn env s history he hp]
        exact List.chain'_singleton history
      | ok msgs =>
        rw [completionInputs_cons_ok env s history he hp]
        rw [List.chain'_cons']
        refine ⟨?_, ih _⟩
        intro y hy
        rw [completionInputs_head env s ((history ++ [Msg.assistant am]) ++ msgs)]
          at hy
        simp only [Option.mem_def, Option.some.injEq] at hy
        subst hy
        exact ⟨am, msgs, by simp, he, processToolCalls_ok_good hp⟩

/-- Claim C2: every tool-call request whose remote invocation fails
(raises) gets a `ToolCallResult` whose content is `"Error: "` followed by
the cause; the loop neither aborts nor propagates the failure (argument
decoding, the one raising step, is assumed to succeed), and the turn still
reaches a normal Idle completion once the LLM stops requesting tools. -/
theorem claim_C2 (env : Env) (script : List AssistantMsg) (init : List Msg)
    (q : String)
    (hdec : ∀ s, (env.decodeArgs s).isSome = true)
    (hfin : ∃ am ∈ script, am.tool_calls = []) :
    (∃ h a, chat env script q init = ChatOutcome.ok h a) ∧
    ∀ calls : List ToolCall, ∃ msgs,
      processToolCalls env calls = Except.ok msgs ∧ goodResults calls msgs ∧
        ∀ (j : Nat) (tc : ToolCall) (args e : String),
          calls[j]? = some tc →
          env.decodeArgs tc.arguments = some args →
          env.callTool tc.name args = Except.error e →
          msgs[j]? = some (Msg.tool tc.id tc.name ("Error: " ++ e)) := by
  exact ⟨chatLoop_ok_of_final hdec script (init ++ [Msg.user q]) hfin,
    processToolCalls_total hdec⟩

theorem claim_C2_witness :
    ∃ h a,
      chat ⟨fun s => some s, fun _ _ => Except.error "boom"⟩
        [⟨none, [⟨"a", "t", "null"⟩]⟩, ⟨some "done", []⟩] "hi"
        [Msg.system "sys"] = ChatOutcome.ok h a :=
  (claim_C2 ⟨fun s => some s, fun _ _ => Except.error "boom"⟩
    [⟨none, [⟨"a", "t", "null"⟩]⟩, ⟨some "done", []⟩] [Msg.system "sys"] "hi"
    (fun _ => rfl) ⟨⟨some "done", []⟩, by decide, rfl⟩).1

/-- Claim C3: after a completed user turn, if the history exceeds
`MAX_HISTORY + 1` entries it is reset to exactly the single leading system
message; the bounded history never exceeds `MAX_HISTORY + 1` entries, and
its head is always the original system message. -/
theorem claim_C3 (maxHistory : Nat) (sys q : String) (rest : List Msg)
    (env : Env) (script : List AssistantMsg) :
    ((chat env script q (Msg.system sys :: rest)).history.length >
        maxHistory + 1 →
      boundHistory maxHistory
          (chat env script q (Msg.system sys :: rest)).history =
        [Msg.system sys]) ∧
    (boundHistory maxHistory
        (chat env script q (Msg.system sys :: rest)).history).length ≤
      maxHistory + 1 ∧
    (boundHistory maxHistory
        (chat env script q (Msg.system sys :: rest)).history).head? =
      some (Msg.system sys) := by
  obtain ⟨d, hd⟩ :=
    chatLoop_history_extends env script ((Msg.system sys :: rest) ++ [Msg.user q])
  have hh : (chat env script q (Msg.system sys :: rest)).history =
      Msg.system sys :: (rest ++ [Msg.user q] ++ d) := by
    rw [chat, hd]
    simp
  rw [hh, boundHistory]
  refine ⟨?_, ?_, ?_⟩
  · intro hlen
    rw [if_pos hlen]
    rfl
  · split_ifs with hlen
    · simp
    · omega
  · split_ifs with hlen
    · rfl
    · rfl

theorem claim_C3_witness :
    boundHistory 0
        (chat ⟨fun s => some s, fun _ _ => Except.ok []⟩ [] "q"
          [Msg.system "s", Msg.user "a"]).history =
      [Msg.system "s"] :=
  (claim_C3 0 "s" "q" [Msg.user "a"]
    ⟨fun s => some s, fun _ _ => Except.ok []⟩ []).1 (by decide)

/-- Claim C9: if JSON decoding of a tool-call request's arguments fails,
the exception propagates out of `chat` and aborts the turn — the decode
sits outside the error-folding try block — leaving the assistant message
in the history while no `ToolCallResult` for the failing request (nor for
any later request of the same turn) is appended; the earlier requests of
the turn keep their already-appended results. -/
theorem claim_C9 (env : Env) (init : List Msg) (q : String)
    (am : AssistantMsg) (script : List AssistantMsg)
    (pre post : List ToolCall) (bad : ToolCall)
    (hcalls : am.tool_calls = pre ++ bad :: post)
    (hpre : ∀ tc ∈ pre, (env.decodeArgs tc.arguments).isSome = true)
    (hbad : env.decodeArgs bad.arguments = none)
    (hids : ∀ tc ∈ pre, tc.id ≠ bad.id) :
    ∃ msgs,
      chat env (am :: script) q init =
        ChatOutcome.exn ((init ++ [Msg.user q, Msg.assistant am]) ++ msgs) ∧
      goodResults pre msgs ∧
      ∀ (n c : String), Msg.tool bad.id n c ∉ msgs := by
  obtain ⟨msgs, hmsgs, hgood⟩ := processToolCalls_error_shape hbad pre hpre post
  have hne : am.tool_calls ≠ [] := by
    rw [hcalls]
    simp
  refine ⟨msgs, ?_, hgood, ?_⟩
  · rw [chat,
      chatLoop_cons_exn env script (init ++ [Msg.user q]) hne (hcalls ▸ hmsgs)]
    simp
  · intro n c hmem
    obtain ⟨tc, htc, c2, heq⟩ := goodResults_mem hgood hmem
    injection heq with h1 h2 h3
    exact hids tc htc h1.symm

theorem claim_C9_witness :
    ∃ msgs,
      chat ⟨fun s => if s = "good" then some s else none,
          fun _ _ => Except.ok [Block.text "r"]⟩
        [⟨none, [⟨"a", "t", "good"⟩, ⟨"b", "u", "bad"⟩]⟩] "q"
        [Msg.system "s"] =
        ChatOutcome.exn (([Msg.system "s"] ++ [Msg.user "q",
          Msg.assistant ⟨none, [⟨"a", "t", "good"⟩, ⟨"b", "u", "bad"⟩]⟩]) ++
            msgs) ∧
      goodResults [⟨"a", "t", "good"⟩] msgs ∧
      ∀ (n c : String), Msg.tool "b" n c ∉ msgs :=
  claim_C9 ⟨fun s => if s = "good" then some s else none,
      fun _ _ => Except.ok [Block.text "r"]⟩
    [Msg.system "s"] "q" ⟨none, [⟨"a", "t", "good"⟩, ⟨"b", "u", "bad"⟩]⟩ []
    [⟨"a", "t", "good"⟩] [] ⟨"b", "u", "bad"⟩ rfl (by decide) (by decide)
    (by decide)

/-- Claim C4 as stated is false: the puppy_guide handler renders its menu
and reads one input line even when no response data is wanted, and then
declines on non-integer input — at input `"x"` with one menu option it
returns decline after consuming a line, not an immediate accept with no
input consumed. -/
theorem claim_C4_counterexample :
    PuppyClient.elicitation_handler ["labrador"] false "x" =
      (ElicitOutcome.decline, 1) ∧
    (ElicitOutcome.decline, 1) ≠ (ElicitOutcome.accept, (0 : Nat)) := by
  decide

/-- Claim C4 (amended): when no response data is wanted, the
fastmcp_netflix handler returns accept immediately without consuming any
input; the puppy_guide handler always consumes exactly one input line
first, never raises in this mode, and returns accept exactly when the
line parses as an integer that is at least 1 and is not the synthetic
abandon index K+1, declining otherwise. -/
theorem claim_C4 :
    (∀ line : String,
      NetflixClient.elicitation_handler false line = (ElicitOutcome.accept, 0)) ∧
    ∀ (options : List String) (line : String), ∃ out,
      PuppyClient.elicitation_handler options false line = (out, 1) ∧
      (out = ElicitOutcome.accept ∨ out = ElicitOutcome.decline) ∧
      (out = ElicitOutcome.accept ↔
        ∃ c : Int, pyInt (pyStrip line) = some c ∧ 1 ≤ c ∧
          c ≠ (options.length : Int) + 1) := by
  refine ⟨fun line => rfl, ?_⟩
  intro options line
  cases hp : pyInt (pyStrip line) with
  | none =>
    refine ⟨ElicitOutcome.decline, ?_, Or.inr rfl, ?_⟩
    · simp only [PuppyClient.elicitation_handler, hp]
    · constructor
      · intro h
        cases h
      · rintro ⟨c, hc, -, -⟩
        cases hc
  | some choice =>
    by_cases hc : choice < 1 ∨ choice = (options.length : Int) + 1
    · refine ⟨ElicitOutcome.decline, ?_, Or.inr rfl, ?_⟩
      · simp only [PuppyClient.elicitation_handler, hp, if_pos hc]
      · constructor
        · intro h
          cases h
        · rintro ⟨c, hc2, h1, h2⟩
          cases hc2
          cases hc with
          | inl h => omega
          | inr h => exact absurd h h2
    · refine ⟨ElicitOutcome.accept, ?_, Or.inl rfl, ?_⟩
      · simp only [PuppyClient.elicitation_handler, hp, if_neg hc]
        rfl
      · push_neg at hc
        exact iff_of_true rfl ⟨choice, rfl, by omega, hc.2⟩

theorem claim_C4_witness :
    NetflixClient.elicitation_handler false "x" = (ElicitOutcome.accept, 0) :=
  claim_C4.1 "x"

/-- Claim C5: the spec and the handler's own comment ("out-of-range →
decline") say any integer outside [1, K+1] declines without raising, but
for the two-option menu (K = 2) the input "4" reaches `options[3]` and
raises an uncaught IndexError; the in-range behaviours match the claim. -/
theorem claim_C5_eval :
    PuppyClient.elicitation_handler ["labrador", "poodle"] true "4" =
      (ElicitOutcome.raises, 1) ∧
    PuppyClient.elicitation_handler ["labrador", "poodle"] true "3" =
      (ElicitOutcome.decline, 1) ∧
    PuppyClient.elicitation_handler ["labrador", "poodle"] true "0" =
      (ElicitOutcome.decline, 1) ∧
    PuppyClient.elicitation_handler ["labrador", "poodle"] true "1" =
      (ElicitOutcome.acceptValue "labrador", 1) ∧
    PuppyClient.elicitation_handler ["labrador", "poodle"] true "2" =
      (ElicitOutcome.acceptValue "poodle", 1) ∧
    PuppyClient.elicitation_handler ["labrador", "poodle"] true "x" =
      (ElicitOutcome.decline, 1) := by
  decide

/-- Claim C7 as stated is false: the resolver can raise to the caller —
with no enumerated options (the schema of a free-form shape), integer
input 2 reaches `options[1]` on an empty list and raises an uncaught
IndexError instead of declining. -/
theorem claim_C7_counterexample :
    PuppyClient.elicitation_handler [] true "2" = (ElicitOutcome.raises, 1) ∧
    (ElicitOutcome.raises, 1) ≠ (ElicitOutcome.decline, (1 : Nat)) := by
  decide

/-- Claim C7 (amended): the fastmcp_netflix handler performs no
shape-specific coercion itself — it declines on empty or whitespace-only
input and otherwise returns the stripped raw line wrapped in the response
type; the puppy_guide handler coerces every input to an integer menu
choice, declining (not raising) on non-integer input, but an integer
pointing past the menu raises an IndexError to the caller — with no
enumerated options any integer ≥ 2 raises. -/
theorem claim_C7 :
    (∀ line : String, pyStrip line = "" →
      NetflixClient.elicitation_handler true line = (ElicitOutcome.decline, 1)) ∧
    (∀ line : String, pyStrip line ≠ "" →
      NetflixClient.elicitation_handler true line =
        (ElicitOutcome.acceptValue (pyStrip line), 1)) ∧
    (∀ (options : List String) (line : String), pyInt (pyStrip line) = none →
      PuppyClient.elicitation_handler options true line =
        (ElicitOutcome.decline, 1)) ∧
    ∀ (line : String) (c : Int), pyInt (pyStrip line) = some c → 2 ≤ c →
      PuppyClient.elicitation_handler [] true line =
        (ElicitOutcome.raises, 1) := by
  refine ⟨?_, ?_, ?_, ?_⟩
  · intro line h
    rw [NetflixClient.elicitation_handler]
    simp [h]
  · intro line h
    rw [NetflixClient.elicitation_handler]
    simp [h]
  · intro options line h
    rw [PuppyClient.elicitation_handler, h]
  · intro line c h hc
    simp only [PuppyClient.elicitation_handler, h]
    split_ifs with h1 h2
    · exfalso
      simp only [List.length_nil] at h1
      push_cast at h1
      omega
    · simp at h2
    · simp

theorem claim_C7_witness :
    NetflixClient.elicitation_handler true "   " = (ElicitOutcome.decline, 1) :=
  claim_C7.1 "   " (by decide)

/-- Claim C6 as stated is false at a cited call site: the mcp-client loop
folds `str(result.content)` into the `ToolCallResult`, rendering Python's
bracketed list formatting rather than the newline concatenation of the
text-bearing items — already on the empty structured content sequence it
yields `"[]"` where the claimed concatenation is `""` (no item is
rendered, so this holds for every library item repr; the placeholder repr
below is never applied). -/
theorem claim_C6_counterexample :
    mcpClientFold (fun _ => "") [] = "[]" ∧ specTextualPayload [] = "" ∧
      ("[]" : String) ≠ "" := by
  decide

/-- Claim C6 (amended): only the fastmcp_netflix client folds the claimed
payload — there, for every successful tool invocation, the text folded
into the `ToolCallResult` equals the concatenation of the text-bearing
items in their original order, separated by newlines, with non-text items
skipped (the extraction refines the spec's description, and the folded
tool message carries exactly that payload); the mcp-client (and
puppy_guide) loops instead stringify the result with Python's list
formatting, which differs from that concatenation — already on the empty
sequence, for every item repr. -/
theorem claim_C6 :
    (∀ result : List Block, extractResultText result = specTextualPayload result) ∧
    (∀ (env : Env) (tc : ToolCall) (args : String) (result : List Block),
      env.callTool tc.name args = Except.ok result →
      foldCallResult env tc args =
        Msg.tool tc.id tc.name (specTextualPayload result)) ∧
    ∀ itemRepr : Block → String,
      mcpClientFold itemRepr [] ≠ specTextualPayload [] := by
  have key : ∀ result : List Block,
      extractResultText result = specTextualPayload result := by
    intro result
    induction result with
    | nil => rfl
    | cons b rest ih =>
      cases b with
      | other =>
        rw [specTextualPayload, ← ih, extractResultText, extractResultText]
        simp [List.filterMap_cons, Block.textOf]
      | text s =>
        rw [specTextualPayload]
        cases ht : hasTextItem rest with
        | false =>
          rw [if_neg (by simp [ht])]
          rw [extractResultText]
          simp [List.filterMap_cons, Block.textOf, hasTextItem_eq_false ht, pyJoin]
        | true =>
          rw [if_pos (by simp [ht]), extractResultText, List.filterMap_cons]
          simp only [Block.textOf]
          rw [pyJoin_cons "\n" s (hasTextItem_eq_true ht), ← extractResultText, ih]
  refine ⟨key, ?_, ?_⟩
  · intro env tc args result h
    simp only [foldCallResult, h, key]
  · intro itemRepr
    show pyStrList itemRepr [] ≠ specTextualPayload []
    have hr : pyStrList itemRepr [] = "[]" := rfl
    rw [hr]
    decide

theorem claim_C6_witness :
    foldCallResult
        ⟨fun s => some s,
          fun _ _ => Except.ok [Block.text "x", Block.other, Block.text "y"]⟩
        ⟨"i", "n", "a"⟩ "a" =
      Msg.tool "i" "n"
        (specTextualPayload [Block.text "x", Block.other, Block.text "y"]) :=
  claim_C6.2.1
    ⟨fun s => some s,
      fun _ _ => Except.ok [Block.text "x", Block.other, Block.text "y"]⟩
    ⟨"i", "n", "a"⟩ "a" [Block.text "x", Block.other, Block.text "y"] rfl

/-- Claim C8: for every progress notification, when `total` is present
and positive the sink renders `round(current/total*100)` as a percentage
(the rendered integer is within one half of the exact ratio), otherwise
it renders `current` as a raw count (exactly `current` whenever it is
integral); the handler is a total function, so it never raises. -/
theorem claim_C8 (p t : ℚ) :
    (0 < t →
      progress_handler p (some t) =
        ProgressRender.percent (roundHalfEven (p / t * 100)) ∧
      |p / t * 100 - (roundHalfEven (p / t * 100) : ℚ)| ≤ 1/2) ∧
    (t ≤ 0 → progress_handler p (some t) = ProgressRender.raw (pyTrunc p)) ∧
    progress_handler p none = ProgressRender.raw (pyTrunc p) ∧
    ∀ z : ℤ, progress_handler (z : ℚ) none = ProgressRender.raw z := by
  refine ⟨fun ht => ⟨?_, roundHalfEven_close _⟩, fun ht => ?_, rfl, fun z => ?_⟩
  · simp only [progress_handler, if_pos ht]
  · simp only [progress_handler, if_neg (not_lt.2 ht)]
  · simp only [progress_handler, pyTrunc_intCast]

theorem claim_C8_witness :
    progress_handler 50 (some 200) =
      ProgressRender.percent (roundHalfEven (50 / 200 * 100)) :=
  ((claim_C8 50 200).1 (by simp)).1

/-- Claim C10: `add_to_favorites` is idempotent per movie id — when the
favorites already contain an entry with the target movie's id, the call
returns the already-in-favorites message and leaves the favorites
unchanged — and consequently any favorites state reached by a sequence of
adds from the empty initial state has pairwise distinct ids. -/
theorem claim_C10 :
    (∀ (movie : Movie) (favorites : List FavEntry),
      (∃ fav ∈ favorites, fav.id = movie.id) →
      add_to_favorites movie favorites =
        (favorites,
          "\x27" ++ movie.title ++ "\x27 is already in your favorites")) ∧
    ∀ movies : List Movie, ((runAdds movies).map FavEntry.id).Nodup := by
  constructor
  · intro movie favorites h
    have hmem : favorites.any (fun fav => fav.id == movie.id) = true := by
      simp only [List.any_eq_true, beq_iff_eq]
      exact h
    rw [add_to_favorites, if_pos hmem]
  · intro movies
    exact runAdds_aux_nodup movies [] (by simp)

theorem claim_C10_witness :
    add_to_favorites ⟨1, "A"⟩ [⟨1, "B"⟩] =
      ([⟨1, "B"⟩], "\x27" ++ "A" ++ "\x27 is already in your favorites") :=
  claim_C10.1 ⟨1, "A"⟩ [⟨1, "B"⟩] (by decide)

end MCP
